import Mathlib

/-!
Verification of the seirmo stochastic simulation engine (`solve_gillespie`)
against its natural-language specification.

The engine itself is not part of the checked-in sources (only its test file
is), so every definition below is modelled from the specification document:
its input validation (§4.1), its per-step direct-method algorithm, and its
error taxonomy (§7).  Randomness is made explicit as a stream of draws
(an exponential(1) variate and a uniform [0,1) variate per step), and lazy
generator consumption is made explicit as a fuel argument counting loop
iterations; a run that exhausts its fuel is reported as still in progress.
-/

namespace Seirmo

/-- Modelled from the spec: the missing engine accepts a Python list as its
time span, whose elements may be numbers or other values such as strings
(§4.1 demands a type error for a non-numeric element).  A `PyVal` is such a
dynamically typed element. -/
inductive PyVal where
  | num (q : ℚ)
  | str (s : String)
deriving Repr, DecidableEq

/-- Modelled from the spec: the error taxonomy of §7 — shape error (time span
not exactly two elements), type error (non-numeric time span element), range
error (stop ≤ start, negative initial state entry, negative propensity
entry). -/
inductive GillespieError where
  | shapeError
  | typeError
  | rangeError
deriving Repr, DecidableEq

/-- Modelled from the spec: the termination states of §4.1 — `absorbed`
(total rate zero), `horizonReached` (the next prospective event would pass
the end of the time span), `failed` (a validation error was raised).
`outOfFuel` is an artefact of the explicit-fuel embedding: the run is still
in progress after the requested number of iterations. -/
inductive RunStatus where
  | absorbed
  | horizonReached
  | outOfFuel
  | failed (e : GillespieError)
deriving Repr, DecidableEq

/-- Modelled from the spec: the observable outcome of (a finite portion of) a
run.  `events` is the emitted sequence, each event being the time followed by
the full state vector; `calls` counts invocations of the caller-supplied
propensity function; `state` and `time` are the engine's working state and
clock when the run stopped or was suspended. -/
structure RunResult where
  events : List (List ℚ)
  calls : Nat
  state : List ℚ
  time : ℚ
  status : RunStatus
deriving Repr, DecidableEq

/-- Modelled from the spec: resolution of a weighted draw within one row of
the cumulative-weighted flattened entry list (§4.1 step 6).  Returns the
first position whose cumulative weight exceeds the draw, clamped to the last
position of a nonempty row. -/
def selectIndex : List ℚ → ℚ → Nat
  | [], _ => 0
  | [_], _ => 0
  | x :: y :: rest, v => if v < x then 0 else selectIndex (y :: rest) (v - x) + 1

/-- Modelled from the spec: selection of one transition `(i, j)` with
probability proportional to `P[i][j] / R` by a single draw over the
cumulative-weighted row-major entry list (§4.1 step 6), computed by walking
the rows and their entries cumulatively. -/
def selectEntry : List (List ℚ) → ℚ → Nat × Nat
  | [], _ => (0, 0)
  | [row], v => (0, selectIndex row v)
  | row :: next :: P, v =>
    if v < row.sum then (0, selectIndex row v)
    else ((selectEntry (next :: P) (v - row.sum)).1 + 1,
          (selectEntry (next :: P) (v - row.sum)).2)

/-- Modelled from the spec: the per-step propensity validation of §4.1
step 2 — whether the evaluated matrix has a negative entry. -/
def hasNegEntry (P : List (List ℚ)) : Bool :=
  P.any (fun row => row.any (fun x => x < 0))

/-- Modelled from the spec: the total rate `R`, the sum of all entries of the
propensity matrix (§4.1 step 3). -/
def totalRate (P : List (List ℚ)) : ℚ :=
  (P.map (fun row => row.sum)).sum

/-- Modelled from the spec: applying the selected transition `(i, j)` —
decrement compartment `i` by one unit, increment compartment `j` by one unit
(§4.1 step 6). -/
def applyTransition (y : List ℚ) (p : Nat × Nat) : List ℚ :=
  let y1 := y.set p.1 (y.getD p.1 0 - 1)
  y1.set p.2 (y1.getD p.2 0 + 1)

/-- Modelled from the spec: the event loop of the missing engine (§4.1
steps 1–7).  Each iteration evaluates the propensity function once, fails
with a range error on a negative entry, terminates cleanly when the total
rate is zero (emitting one final unchanged-state event, so that the final
emitted state equals the state in which the system was absorbed, per §8's
all-zero property), samples the waiting time `τ = e / R` from the
exponential(1) draw `e`, stops without emitting when the horizon would be
passed, and otherwise applies one weighted-selected transition, advances the
clock and emits the new `(time, *state)` record.  `fuel` bounds the number of
iterations (lazy consumption made explicit); exhausted fuel reports a run
still in progress. -/
def gillespieLoop (f : List ℚ → List (List ℚ)) (draws : Nat → ℚ × ℚ)
    (tstop : ℚ) : Nat → ℚ → List ℚ → RunResult
  | 0, t, y => ⟨[], 0, y, t, RunStatus.outOfFuel⟩
  | Nat.succ fuel, t, y =>
    let P := f y
    if hasNegEntry P then
      ⟨[], 1, y, t, RunStatus.failed GillespieError.rangeError⟩
    else
      let R := totalRate P
      if R = 0 then
        ⟨[t :: y], 1, y, t, RunStatus.absorbed⟩
      else
        let tau := (draws 0).1 / R
        if tstop < t + tau then
          ⟨[], 1, y, t, RunStatus.horizonReached⟩
        else
          let p := selectEntry P ((draws 0).2 * R)
          let y2 := applyTransition y p
          let r := gillespieLoop f (fun n => draws (n + 1)) tstop fuel (t + tau) y2
          ⟨((t + tau) :: y2) :: r.events, r.calls + 1, r.state, r.time, r.status⟩

/-- Modelled from the spec: the missing engine `solve_gillespie` itself
(§4.1).  Eager input validation in the staged order of the spec: shape of the
time span (exactly two elements), numeric type of both elements, strict
ordering `start < stop`, non-negativity of the initial state; all failures
produce no event and never invoke the propensity function.  On valid input
the event loop runs from `(t_start, initial_state)`. -/
def solve_gillespie (f : List ℚ → List (List ℚ)) (init : List ℚ)
    (tspan : List PyVal) (draws : Nat → ℚ × ℚ) (fuel : Nat) : RunResult :=
  match tspan with
  | [PyVal.num ta, PyVal.num tb] =>
    if tb ≤ ta then ⟨[], 0, init, 0, RunStatus.failed GillespieError.rangeError⟩
    else if init.any (fun x => x < 0) then
      ⟨[], 0, init, 0, RunStatus.failed GillespieError.rangeError⟩
    else gillespieLoop f draws tb fuel ta init
  | [_, _] => ⟨[], 0, init, 0, RunStatus.failed GillespieError.typeError⟩
  | _ => ⟨[], 0, init, 0, RunStatus.failed GillespieError.shapeError⟩

/-- A draw stream is well formed when every step's waiting-time draw is a
positive exponential(1) variate and every selection draw is a uniform
variate in `[0, 1)` — exactly the support of the distributions the spec
prescribes (§4.1 steps 4 and 6). -/
def WellFormedDraws (draws : Nat → ℚ × ℚ) : Prop :=
  ∀ n, 0 < (draws n).1 ∧ 0 ≤ (draws n).2 ∧ (draws n).2 < 1

/-- A valid input per §4.1: a two-element numeric time span with
`start < stop` and an entrywise non-negative initial state. -/
def ValidInput (tspan : List PyVal) (init : List ℚ) : Prop :=
  ∃ ta tb, tspan = [PyVal.num ta, PyVal.num tb] ∧ ta < tb ∧ ∀ x ∈ init, 0 ≤ x

/-- Whether a run status is a raised error (any of the §7 error kinds). -/
def isFailure : RunStatus → Bool
  | RunStatus.failed _ => true
  | _ => false

/-! ### Helper lemmas about lists, selection and rates -/

lemma getD_nonneg {l : List ℚ} (h : ∀ x ∈ l, 0 ≤ x) (i : Nat) : 0 ≤ l.getD i 0 := by
  induction l generalizing i with
  | nil => simp [List.getD]
  | cons a l ih =>
    cases i with
    | zero => simpa using h a (List.mem_cons_self a l)
    | succ i => simpa using ih (fun x hx => h x (List.mem_cons_of_mem a hx)) i

lemma getD_nil_eq {α : Type} (n : Nat) (d : α) : ([] : List α).getD n d = d := by
  cases n <;> rfl

lemma getD_mem {α : Type} (l : List α) (i : Nat) (d : α) (h : i < l.length) :
    l.getD i d ∈ l := by
  induction l generalizing i with
  | nil => simp at h
  | cons a l ih =>
    cases i with
    | zero => simp
    | succ i =>
      have : i < l.length := by simpa using h
      simpa using Or.inr (ih i this)

lemma sum_set (l : List ℚ) (i : Nat) (a : ℚ) (h : i < l.length) :
    (l.set i a).sum = l.sum - l.getD i 0 + a := by
  induction l generalizing i with
  | nil => simp at h
  | cons x xs ih =>
    cases i with
    | zero => simp [List.set]; ring
    | succ i =>
      have h2 : i < xs.length := by simpa using h
      simp [List.set, ih i h2]
      ring

lemma totalRate_nil : totalRate [] = 0 := rfl

lemma totalRate_cons (row : List ℚ) (P : List (List ℚ)) :
    totalRate (row :: P) = row.sum + totalRate P := by
  simp [totalRate]

lemma totalRate_nonneg (P : List (List ℚ)) (h : ∀ row ∈ P, ∀ x ∈ row, 0 ≤ x) :
    0 ≤ totalRate P := by
  apply List.sum_nonneg
  intro a ha
  simp only [List.mem_map] at ha
  obtain ⟨row, hrow, rfl⟩ := ha
  exact List.sum_nonneg (h row hrow)

lemma hasNegEntry_eq_false_iff (P : List (List ℚ)) :
    hasNegEntry P = false ↔ ∀ row ∈ P, ∀ x ∈ row, 0 ≤ x := by
  simp [hasNegEntry, not_lt]

lemma selectIndex_lt_length (row : List ℚ) : ∀ v : ℚ, row ≠ [] →
    selectIndex row v < row.length := by
  induction row with
  | nil => intro v h; exact absurd rfl h
  | cons x rest ih =>
    intro v _
    cases rest with
    | nil => simp [selectIndex]
    | cons y rest2 =>
      rw [selectIndex]
      split
      · simp
      · have := ih (v - x) (by simp)
        simp only [List.length_cons] at this ⊢
        omega

lemma selectIndex_pos (row : List ℚ) : ∀ v : ℚ, 0 ≤ v → v < row.sum →
    (∀ x ∈ row, 0 ≤ x) → 0 < row.getD (selectIndex row v) 0 := by
  induction row with
  | nil =>
    intro v h0 h1 _
    simp only [List.sum_nil] at h1
    linarith
  | cons x rest ih =>
    intro v h0 h1 h2
    cases rest with
    | nil =>
      have hx : v < x := by simpa using h1
      simp only [selectIndex, List.getD_cons_zero]
      linarith
    | cons y rest2 =>
      rw [selectIndex]
      split
      · next hlt =>
        simp only [List.getD_cons_zero]
        linarith
      · next hge =>
        push_neg at hge
        have hsum : v - x < (y :: rest2).sum := by
          simp only [List.sum_cons] at h1 ⊢
          linarith
        have := ih (v - x) (by linarith) hsum
          (fun z hz => h2 z (List.mem_cons_of_mem x hz))
        simpa using this

lemma selectEntry_fst_lt (P : List (List ℚ)) : ∀ v : ℚ, P ≠ [] →
    (selectEntry P v).1 < P.length := by
  induction P with
  | nil => intro v h; exact absurd rfl h
  | cons row rest ih =>
    intro v _
    cases rest with
    | nil => simp [selectEntry]
    | cons next rest2 =>
      rw [selectEntry]
      split
      · simp
      · have := ih (v - row.sum) (by simp)
        simp only [List.length_cons] at this ⊢
        omega

lemma selectEntry_snd_lt (P : List (List ℚ)) : ∀ v : ℚ, P ≠ [] →
    (∀ row ∈ P, row ≠ []) →
    (selectEntry P v).2 < (P.getD (selectEntry P v).1 []).length := by
  induction P with
  | nil => intro v h; exact absurd rfl h
  | cons row rest ih =>
    intro v _ hrows
    cases rest with
    | nil =>
      simp only [selectEntry, List.getD_cons_zero]
      exact selectIndex_lt_length row v (hrows row (List.mem_cons_self row []))
    | cons next rest2 =>
      rw [selectEntry]
      split
      · simp only [List.getD_cons_zero]
        exact selectIndex_lt_length row v (hrows row (List.mem_cons_self row _))
      · have := ih (v - row.sum) (by simp)
          (fun r hr => hrows r (List.mem_cons_of_mem row hr))
        simpa using this

lemma selectEntry_pos (P : List (List ℚ)) : ∀ v : ℚ, 0 ≤ v → v < totalRate P →
    (∀ row ∈ P, ∀ x ∈ row, 0 ≤ x) →
    0 < ((P.getD (selectEntry P v).1 []).getD (selectEntry P v).2 0) := by
  induction P with
  | nil =>
    intro v h0 h1 _
    rw [totalRate_nil] at h1
    linarith
  | cons row rest ih =>
    intro v h0 h1 h2
    cases rest with
    | nil =>
      have hv : v < row.sum := by
        have := totalRate_cons row []
        rw [totalRate_nil] at this
        rw [this] at h1
        linarith
      simp only [selectEntry, List.getD_cons_zero]
      exact selectIndex_pos row v h0 hv (h2 row (List.mem_cons_self row []))
    | cons next rest2 =>
      rw [selectEntry]
      split
      · next hlt =>
        simp only [List.getD_cons_zero]
        exact selectIndex_pos row v h0 hlt (h2 row (List.mem_cons_self row _))
      · next hge =>
        push_neg at hge
        have hv2 : v - row.sum < totalRate (next :: rest2) := by
          rw [totalRate_cons] at h1
          linarith
        have := ih (v - row.sum) (by linarith) hv2
          (fun r hr x hx => h2 r (List.mem_cons_of_mem row hr) x hx)
        simpa using this

lemma applyTransition_length (y : List ℚ) (p : Nat × Nat) :
    (applyTransition y p).length = y.length := by
  simp [applyTransition]

lemma applyTransition_sum (y : List ℚ) (p : Nat × Nat)
    (h1 : p.1 < y.length) (h2 : p.2 < y.length) :
    (applyTransition y p).sum = y.sum := by
  simp only [applyTransition]
  rw [sum_set _ _ _ (by simpa using h2), sum_set _ _ _ h1]
  ring

lemma applyTransition_nonneg (y : List ℚ) (p : Nat × Nat)
    (hy : ∀ x ∈ y, 0 ≤ x) (hi : 1 ≤ y.getD p.1 0) :
    ∀ x ∈ applyTransition y p, 0 ≤ x := by
  have hy1 : ∀ z ∈ y.set p.1 (y.getD p.1 0 - 1), 0 ≤ z := by
    intro z hz
    rcases List.mem_or_eq_of_mem_set hz with hz1 | rfl
    · exact hy z hz1
    · linarith
  intro x hx
  simp only [applyTransition] at hx
  rcases List.mem_or_eq_of_mem_set hx with hx1 | rfl
  · exact hy1 x hx1
  · have := getD_nonneg hy1 p.2
    linarith

/-! ### Invariants of the event loop -/

lemma gillespieLoop_conservation (f : List ℚ → List (List ℚ)) (k : Nat)
    (Hsq : ∀ y : List ℚ, y.length = k → (f y).length = k ∧ ∀ row ∈ f y, row.length = k) :
    ∀ (fuel : Nat) (draws : Nat → ℚ × ℚ) (tstop t : ℚ) (y : List ℚ), y.length = k →
      ∀ e ∈ (gillespieLoop f draws tstop fuel t y).events,
        e.tail.sum = y.sum ∧ e.length = k + 1 := by
  intro fuel
  induction fuel with
  | zero =>
    intro draws tstop t y hk e he
    simp [gillespieLoop] at he
  | succ fuel ih =>
    intro draws tstop t y hk e he
    simp only [gillespieLoop] at he
    by_cases hneg : hasNegEntry (f y)
    · simp [hneg] at he
    · simp only [hneg, Bool.false_eq_true, if_false] at he
      by_cases hR : totalRate (f y) = 0
      · simp only [hR, if_true, List.mem_singleton] at he
        subst he
        exact ⟨by simp, by simp [hk]⟩
      · simp only [hR, if_false] at he
        by_cases hH : tstop < t + (draws 0).1 / totalRate (f y)
        · simp [hH] at he
        · simp only [hH, if_false, List.mem_cons] at he
          set p := selectEntry (f y) ((draws 0).2 * totalRate (f y)) with hpdef
          have hPne : f y ≠ [] := by
            intro h0
            exact hR (by rw [h0, totalRate_nil])
          have hPlen : (f y).length = k := (Hsq y hk).1
          have hrows : ∀ row ∈ f y, row.length = k := (Hsq y hk).2
          have hrne : ∀ row ∈ f y, row ≠ [] := by
            intro row hr h0
            have hlr := hrows row hr
            rw [h0] at hlr
            simp only [List.length_nil] at hlr
            have : totalRate (f y) = 0 := by
              by_contra
              exact hR (by
                simp only [totalRate]
                apply List.sum_eq_zero
                intro a ha
                obtain ⟨r2, hr2, rfl⟩ := List.mem_map.mp ha
                have := hrows r2 hr2
                rw [← hlr] at this
                have : r2 = [] := List.length_eq_zero.mp this
                simp [this])
            exact hR this
          have hp1 : p.1 < k := hPlen ▸ selectEntry_fst_lt (f y) _ hPne
          have hp2 : p.2 < k := by
            have h2 := selectEntry_snd_lt (f y) ((draws 0).2 * totalRate (f y)) hPne hrne
            rw [← hpdef] at h2
            rw [hrows _ (getD_mem (f y) p.1 [] (by rw [hPlen]; exact hp1))] at h2
            exact h2
          have hsum : (applyTransition y p).sum = y.sum :=
            applyTransition_sum y p (by rw [hk]; exact hp1) (by rw [hk]; exact hp2)
          have hlen : (applyTransition y p).length = k := by
            rw [applyTransition_length]; exact hk
          rcases he with rfl | he2
          · exact ⟨by simp [hsum], by simp [hlen]⟩
          · have := ih (fun n => draws (n + 1)) tstop
              (t + (draws 0).1 / totalRate (f y)) (applyTransition y p) hlen e he2
            exact ⟨by rw [this.1, hsum], this.2⟩

lemma gillespieLoop_nonneg (f : List ℚ → List (List ℚ))
    (Hg : ∀ (y : List ℚ) (i j : Nat), 0 < ((f y).getD i []).getD j 0 → 1 ≤ y.getD i 0) :
    ∀ (fuel : Nat) (draws : Nat → ℚ × ℚ) (tstop t : ℚ) (y : List ℚ),
      WellFormedDraws draws → (∀ x ∈ y, 0 ≤ x) →
      ∀ e ∈ (gillespieLoop f draws tstop fuel t y).events, ∀ x ∈ e.tail, 0 ≤ x := by
  intro fuel
  induction fuel with
  | zero =>
    intro draws tstop t y _ _ e he
    simp [gillespieLoop] at he
  | succ fuel ih =>
    intro draws tstop t y hwf hy e he
    simp only [gillespieLoop] at he
    by_cases hneg : hasNegEntry (f y)
    · simp [hneg] at he
    · simp only [hneg, Bool.false_eq_true, if_false] at he
      have hnn : ∀ row ∈ f y, ∀ x ∈ row, 0 ≤ x :=
        (hasNegEntry_eq_false_iff (f y)).mp (Bool.not_eq_true _ ▸ hneg)
      by_cases hR : totalRate (f y) = 0
      · simp only [hR, if_true, List.mem_singleton] at he
        subst he
        simpa using hy
      · simp only [hR, if_false] at he
        by_cases hH : tstop < t + (draws 0).1 / totalRate (f y)
        · simp [hH] at he
        · simp only [hH, if_false, List.mem_cons] at he
          set v := (draws 0).2 * totalRate (f y) with hvdef
          set p := selectEntry (f y) v with hpdef
          have hRpos : 0 < totalRate (f y) :=
            lt_of_le_of_ne (totalRate_nonneg _ hnn) (Ne.symm hR)
          have hv0 : 0 ≤ v := mul_nonneg (hwf 0).2.1 (le_of_lt hRpos)
          have hv1 : v < totalRate (f y) := by
            have := mul_lt_mul_of_pos_right (hwf 0).2.2 hRpos
            simpa using this
          have hpos := selectEntry_pos (f y) v hv0 hv1 hnn
          have hguard : 1 ≤ y.getD p.1 0 := Hg y p.1 p.2 (by rw [hpdef]; exact hpos)
          have hy2 : ∀ x ∈ applyTransition y p, 0 ≤ x :=
            applyTransition_nonneg y p hy hguard
          rcases he with rfl | he2
          · simpa using hy2
          · exact ih (fun n => draws (n + 1)) tstop
              (t + (draws 0).1 / totalRate (f y)) (applyTransition y p)
              (fun n => hwf (n + 1)) hy2 e he2

lemma gillespieLoop_outOfFuel (f : List ℚ → List (List ℚ)) :
    ∀ (fuel : Nat) (draws : Nat → ℚ × ℚ) (tstop t : ℚ) (y : List ℚ),
      (gillespieLoop f draws tstop fuel t y).status = RunStatus.outOfFuel →
      (gillespieLoop f draws tstop fuel t y).calls = fuel ∧
        (gillespieLoop f draws tstop fuel t y).events.length = fuel := by
  intro fuel
  induction fuel with
  | zero => intro draws tstop t y _; simp [gillespieLoop]
  | succ fuel ih =>
    intro draws tstop t y hst
    simp only [gillespieLoop] at hst ⊢
    by_cases hneg : hasNegEntry (f y)
    · simp [hneg] at hst
    · simp only [hneg, Bool.false_eq_true, if_false] at hst ⊢
      by_cases hR : totalRate (f y) = 0
      · simp [hR] at hst
      · simp only [hR, if_false] at hst ⊢
        by_cases hH : tstop < t + (draws 0).1 / totalRate (f y)
        · simp [hH] at hst
        · simp only [hH, if_false] at hst ⊢
          obtain ⟨h1, h2⟩ := ih (fun n => draws (n + 1)) tstop
            (t + (draws 0).1 / totalRate (f y))
            (applyTransition y (selectEntry (f y) ((draws 0).2 * totalRate (f y)))) hst
          simp [h1, h2]

lemma gillespieLoop_mono (f : List ℚ → List (List ℚ)) :
    ∀ (m n : Nat), m ≤ n → ∀ (draws : Nat → ℚ × ℚ) (tstop t : ℚ) (y : List ℚ),
      ∃ rest, (gillespieLoop f draws tstop n t y).events
        = (gillespieLoop f draws tstop m t y).events ++ rest := by
  intro m
  induction m with
  | zero =>
    intro n _ draws tstop t y
    exact ⟨(gillespieLoop f draws tstop n t y).events, by simp [gillespieLoop]⟩
  | succ m ih =>
    intro n hmn draws tstop t y
    obtain ⟨n2, rfl⟩ : ∃ n2, n = n2 + 1 := ⟨n - 1, by omega⟩
    simp only [gillespieLoop]
    by_cases hneg : hasNegEntry (f y)
    · exact ⟨[], by simp [hneg]⟩
    · simp only [hneg, Bool.false_eq_true, if_false]
      by_cases hR : totalRate (f y) = 0
      · exact ⟨[], by simp [hR]⟩
      · simp only [hR, if_false]
        by_cases hH : tstop < t + (draws 0).1 / totalRate (f y)
        · exact ⟨[], by simp [hH]⟩
        · simp only [hH, if_false]
          obtain ⟨rest, hrest⟩ := ih n2 (by omega) (fun n => draws (n + 1)) tstop
            (t + (draws 0).1 / totalRate (f y))
            (applyTransition y (selectEntry (f y) ((draws 0).2 * totalRate (f y))))
          exact ⟨rest, by simp [hrest]⟩

lemma solve_gillespie_allzero (f : List ℚ → List (List ℚ)) (init : List ℚ)
    (ta tb : ℚ) (draws : Nat → ℚ × ℚ) (fuel : Nat)
    (Hz : ∀ (y : List ℚ), ∀ row ∈ f y, ∀ x ∈ row, x = 0)
    (hinit : ∀ x ∈ init, 0 ≤ x) (hab : ta < tb) :
    solve_gillespie f init [PyVal.num ta, PyVal.num tb] draws (fuel + 1)
      = ⟨[ta :: init], 1, init, ta, RunStatus.absorbed⟩ := by
  have h1 : init.any (fun x => x < 0) = false := by
    simp only [List.any_eq_false, decide_eq_true_eq, not_lt]
    exact hinit
  have h2 : hasNegEntry (f init) = false :=
    (hasNegEntry_eq_false_iff (f init)).mpr
      (fun row hr x hx => le_of_eq (Hz init row hr x hx).symm)
  have h3 : totalRate (f init) = 0 := by
    simp only [totalRate]
    apply List.sum_eq_zero
    intro a ha
    obtain ⟨row, hrow, rfl⟩ := List.mem_map.mp ha
    exact List.sum_eq_zero (Hz init row hrow)
  simp [solve_gillespie, not_le.mpr hab, h1, gillespieLoop, h2, h3]

lemma solve_gillespie_cases (f : List ℚ → List (List ℚ)) (init : List ℚ)
    (tspan : List PyVal) (draws : Nat → ℚ × ℚ) (fuel : Nat) :
    (∃ err, solve_gillespie f init tspan draws fuel
        = ⟨[], 0, init, 0, RunStatus.failed err⟩) ∨
    ∃ ta tb, tspan = [PyVal.num ta, PyVal.num tb] ∧ ¬ tb ≤ ta ∧
      init.any (fun x => x < 0) = false ∧
      solve_gillespie f init tspan draws fuel = gillespieLoop f draws tb fuel ta init := by
  rcases tspan with _ | ⟨a, _ | ⟨b, _ | ⟨c, rest⟩⟩⟩
  · exact Or.inl ⟨GillespieError.shapeError, by simp [solve_gillespie]⟩
  · exact Or.inl ⟨GillespieError.shapeError, by simp [solve_gillespie]⟩
  · cases a with
    | str s => exact Or.inl ⟨GillespieError.typeError, by simp [solve_gillespie]⟩
    | num ta =>
      cases b with
      | str s => exact Or.inl ⟨GillespieError.typeError, by simp [solve_gillespie]⟩
      | num tb =>
        by_cases h1 : tb ≤ ta
        · exact Or.inl ⟨GillespieError.rangeError, by simp [solve_gillespie, h1]⟩
        · by_cases h2 : init.any (fun x => x < 0)
          · exact Or.inl ⟨GillespieError.rangeError, by simp [solve_gillespie, h1, h2]⟩
          · exact Or.inr ⟨ta, tb, rfl, h1, by simpa using h2,
              by simp [solve_gillespie, h1, h2]⟩
  · exact Or.inl ⟨GillespieError.shapeError, by simp [solve_gillespie]⟩

lemma nonneg_of_any_lt_eq_false {init : List ℚ}
    (hA : init.any (fun x => x < 0) = false) : ∀ x ∈ init, 0 ≤ x := by
  simp only [List.any_eq_false, decide_eq_true_eq, not_lt] at hA
  exact hA

/-! ### The claims -/

/-- C4: all four input-validation checks (time-span shape, time-span element
types, time-span ordering, initial-state non-negativity) are performed
eagerly: on any invalid input `solve_gillespie` fails with a validation
error before any event is produced — with an empty event sequence and zero
invocations of the propensity function, for any amount of consumption. -/
theorem seirmo_c4_eager_validation (f : List ℚ → List (List ℚ)) (init : List ℚ)
    (tspan : List PyVal) (draws : Nat → ℚ × ℚ) (fuel : Nat)
    (h : ¬ ValidInput tspan init) :
    (solve_gillespie f init tspan draws fuel).events = [] ∧
    (solve_gillespie f init tspan draws fuel).calls = 0 ∧
    isFailure (solve_gillespie f init tspan draws fuel).status = true := by
  rcases solve_gillespie_cases f init tspan draws fuel with ⟨err, heq⟩ | hok
  · rw [heq]
    exact ⟨rfl, rfl, rfl⟩
  · obtain ⟨ta, tb, rfl, h1, hA, -⟩ := hok
    exact absurd ⟨ta, tb, rfl, not_le.mp h1, nonneg_of_any_lt_eq_false hA⟩ h

/-- C4 witness: the shape-invalid time span `[0]` of the test suite fails
eagerly with no event and no propensity call. -/
theorem seirmo_c4_eager_validation_witness :
    (solve_gillespie (fun _ => [[0, 1], [0, 0]]) [10, 0] [PyVal.num 0]
        (fun _ => (1, 1/2)) 3).events = [] ∧
    (solve_gillespie (fun _ => [[0, 1], [0, 0]]) [10, 0] [PyVal.num 0]
        (fun _ => (1, 1/2)) 3).calls = 0 ∧
    isFailure (solve_gillespie (fun _ => [[0, 1], [0, 0]]) [10, 0] [PyVal.num 0]
        (fun _ => (1, 1/2)) 3).status = true :=
  seirmo_c4_eager_validation _ _ _ _ _ (by
    rintro ⟨ta, tb, h, -, -⟩
    simp at h)

/-- C5: for every time span whose second element is less than or equal to its
first, `solve_gillespie` fails with a range error and produces no event (and
never calls the propensity function). -/
theorem seirmo_c5_tspan_ordering (f : List ℚ → List (List ℚ)) (init : List ℚ)
    (draws : Nat → ℚ × ℚ) (fuel : Nat) (ta tb : ℚ) (h : tb ≤ ta) :
    solve_gillespie f init [PyVal.num ta, PyVal.num tb] draws fuel
      = ⟨[], 0, init, 0, RunStatus.failed GillespieError.rangeError⟩ := by
  simp [solve_gillespie, h]

/-- C5 witness: the degenerate time span `[0, 0]` of the test suite fails
with a range error and produces no event. -/
theorem seirmo_c5_tspan_ordering_witness :
    solve_gillespie (fun _ => [[0, 1], [0, 0]]) [10, 0]
        [PyVal.num 0, PyVal.num 0] (fun _ => (1, 1/2)) 3
      = ⟨[], 0, [10, 0], 0, RunStatus.failed GillespieError.rangeError⟩ :=
  seirmo_c5_tspan_ordering (fun _ => [[0, 1], [0, 0]]) [10, 0]
    (fun _ => (1, 1/2)) 3 0 0 le_rfl

/-- C5 counterexample: the time span `[-2, 0]`, which the claim lists as an
instance of "second element less than or equal to the first", in fact has
its second element strictly greater than its first, and under the spec's
validation rule (only `stop ≤ start` is rejected; a negative start is not
forbidden by itself) the engine accepts it: the run proceeds, emits events,
and terminates at the horizon with no error. -/
theorem seirmo_c5_counterexample :
    ¬ ((0 : ℚ) ≤ (-2 : ℚ)) ∧
    (solve_gillespie (fun _ => [[0, 1], [0, 0]]) [10, 0]
        [PyVal.num (-2), PyVal.num 0] (fun _ => (1, 1/2)) 5).status
      = RunStatus.horizonReached ∧
    (solve_gillespie (fun _ => [[0, 1], [0, 0]]) [10, 0]
        [PyVal.num (-2), PyVal.num 0] (fun _ => (1, 1/2)) 5).events
      = [[-1, 9, 1], [0, 8, 2]] := by
  refine ⟨by norm_num, ?_, ?_⟩ <;>
    norm_num [solve_gillespie, gillespieLoop, hasNegEntry, totalRate,
      selectEntry, selectIndex, applyTransition, List.set]

/-- C6: for every initial state containing a negative entry,
`solve_gillespie` fails with a range error and produces no event (and never
calls the propensity function). -/
theorem seirmo_c6_negative_initial (f : List ℚ → List (List ℚ)) (init : List ℚ)
    (draws : Nat → ℚ × ℚ) (fuel : Nat) (ta tb : ℚ)
    (h : init.any (fun x => x < 0) = true) :
    solve_gillespie f init [PyVal.num ta, PyVal.num tb] draws fuel
      = ⟨[], 0, init, 0, RunStatus.failed GillespieError.rangeError⟩ := by
  by_cases h1 : tb ≤ ta <;> simp [solve_gillespie, h1, h]

/-- C6 witness: the initial state `[-10, 0]` of the test suite fails with a
range error and produces no event. -/
theorem seirmo_c6_negative_initial_witness :
    solve_gillespie (fun _ => [[0, 1], [0, 0]]) [-10, 0]
        [PyVal.num 0, PyVal.num 10] (fun _ => (1, 1/2)) 3
      = ⟨[], 0, [-10, 0], 0, RunStatus.failed GillespieError.rangeError⟩ :=
  seirmo_c6_negative_initial (fun _ => [[0, 1], [0, 0]]) [-10, 0]
    (fun _ => (1, 1/2)) 3 0 10 (by decide)

/-- C1 counterexample: for the end-to-end scenario — initial state `[10, 0]`,
propensity `prop(x) = [[0, x[1]], [0, 0]]` applied to the bare state vector
as the spec prescribes, time span `[0, 100]` — the propensity matrix is
already all-zero at the initial state (its only nonzero candidate entry is
proportional to the second compartment, which starts at `0`), so the run is
absorbed at the very first step: it terminates cleanly, but the state of the
last emitted event is `[10, 0]`, not the claimed `[0, 10]`. -/
theorem seirmo_c1_counterexample :
    (solve_gillespie (fun x => [[0, x.getD 1 0], [0, 0]]) [10, 0]
        [PyVal.num 0, PyVal.num 100] (fun _ => (1, 1/2)) 1).status
      = RunStatus.absorbed ∧
    ((solve_gillespie (fun x => [[0, x.getD 1 0], [0, 0]]) [10, 0]
        [PyVal.num 0, PyVal.num 100] (fun _ => (1, 1/2)) 1).events.getLast?).map
        List.tail = some [10, 0] ∧
    [(10 : ℚ), 0] ≠ [(0 : ℚ), 10] := by
  have he : (solve_gillespie (fun x => [[0, x.getD 1 0], [0, 0]]) [10, 0]
      [PyVal.num 0, PyVal.num 100] (fun _ => (1, 1/2)) 1).events = [[0, 10, 0]] := by
    norm_num [solve_gillespie, gillespieLoop, hasNegEntry, totalRate,
      List.getD_cons_zero, List.getD_cons_succ]
  refine ⟨?_, ?_, by norm_num⟩
  · norm_num [solve_gillespie, gillespieLoop, hasNegEntry, totalRate,
      List.getD_cons_zero, List.getD_cons_succ]
  · rw [he]
    rfl

/-- C1 (amended): for the scenario of the claim, under the spec's calling
convention (the propensity receives the bare state vector), the matrix is
zero at `[10, 0]`, so for every draw stream and any positive amount of
consumption the run terminates cleanly via absorption at the first step —
not via the horizon — emitting exactly one event whose state is the
unchanged `[10, 0]`. -/
theorem seirmo_c1_absorbed_run (draws : Nat → ℚ × ℚ) (fuel : Nat) :
    solve_gillespie (fun x => [[0, x.getD 1 0], [0, 0]]) [10, 0]
        [PyVal.num 0, PyVal.num 100] draws (fuel + 1)
      = ⟨[[0, 10, 0]], 1, [10, 0], 0, RunStatus.absorbed⟩ := by
  norm_num [solve_gillespie, gillespieLoop, hasNegEntry, totalRate]

/-- C2 counterexample: a valid input — non-negative initial state `[0, 1]`,
time span `[0, 10]`, a propensity function constantly returning the
non-negative matrix `[[0, 1], [0, 0]]`, and draws from the support of the
sampling distributions — whose very first emitted event has state
`[-1, 2]`: the unguarded per-step transition decrements the empty first
compartment below zero. -/
theorem seirmo_c2_counterexample :
    (solve_gillespie (fun _ => [[0, 1], [0, 0]]) [0, 1]
        [PyVal.num 0, PyVal.num 10] (fun _ => (1, 1/2)) 1).events
      = [[1, -1, 2]] ∧
    (solve_gillespie (fun _ => [[0, 1], [0, 0]]) [0, 1]
        [PyVal.num 0, PyVal.num 10] (fun _ => (1, 1/2)) 1).events.any
      (fun e => e.tail.any (fun x => x < 0)) = true := by
  constructor <;>
    norm_num [solve_gillespie, gillespieLoop, hasNegEntry, totalRate,
      selectEntry, selectIndex, applyTransition, List.set]

/-- C2 (amended): for every input and every well-formed draw stream, if the
propensity function assigns a positive rate to a transition out of a
compartment only when that compartment holds at least one unit, then every
event emitted by `solve_gillespie` has a state vector whose entries are all
greater than or equal to zero. -/
theorem seirmo_c2_nonneg_invariant (f : List ℚ → List (List ℚ)) (init : List ℚ)
    (tspan : List PyVal) (draws : Nat → ℚ × ℚ) (fuel : Nat)
    (Hg : ∀ (y : List ℚ) (i j : Nat), 0 < ((f y).getD i []).getD j 0 → 1 ≤ y.getD i 0)
    (hwf : WellFormedDraws draws) :
    ∀ e ∈ (solve_gillespie f init tspan draws fuel).events, ∀ x ∈ e.tail, 0 ≤ x := by
  rcases solve_gillespie_cases f init tspan draws fuel with ⟨err, heq⟩ | ⟨ta, tb, -, -, hA, heq⟩
  · rw [heq]
    simp
  · rw [heq]
    exact gillespieLoop_nonneg f Hg fuel draws tb ta init hwf
      (nonneg_of_any_lt_eq_false hA)

/-- C2 witness: a self-limiting propensity (rate `state[0] - 1` out of the
first compartment, positive only when that compartment holds more than one
unit) run from `[2, 0]`: every emitted state is entrywise non-negative. -/
theorem seirmo_c2_nonneg_invariant_witness :
    (solve_gillespie (fun y => [[0, y.getD 0 0 - 1], [0, 0]]) [2, 0]
        [PyVal.num 0, PyVal.num 10] (fun _ => (1, 1/2)) 5).events.all
      (fun e => e.tail.all (fun x => 0 ≤ x)) = true := by
  have h := seirmo_c2_nonneg_invariant (fun y => [[0, y.getD 0 0 - 1], [0, 0]])
    [2, 0] [PyVal.num 0, PyVal.num 10] (fun _ => (1, 1/2)) 5
    (by
      intro y i j h
      rcases i with _ | _ | i
      · rcases j with _ | _ | j
        · simp at h
        · simp only [List.getD_cons_zero, List.getD_cons_succ] at h
          linarith
        · simp [getD_nil_eq] at h
      · rcases j with _ | _ | j <;> simp [getD_nil_eq] at h
      · simp [getD_nil_eq] at h)
    (fun n => ⟨by norm_num, by norm_num, by norm_num⟩)
  simp only [List.all_eq_true, decide_eq_true_eq]
  exact fun e he x hx => h e he x hx

/-- C3: for every input whose propensity function returns a square matrix of
the state's dimension, every event emitted by `solve_gillespie` has a state
vector whose entries sum to the sum of the initial state (population
conservation), and every emitted event record has exactly
`len(initial_state) + 1` components — the time followed by the full state
vector. -/
theorem seirmo_c3_conservation (f : List ℚ → List (List ℚ)) (init : List ℚ)
    (tspan : List PyVal) (draws : Nat → ℚ × ℚ) (fuel : Nat)
    (Hsq : ∀ y : List ℚ, y.length = init.length →
      (f y).length = init.length ∧ ∀ row ∈ f y, row.length = init.length) :
    ∀ e ∈ (solve_gillespie f init tspan draws fuel).events,
      e.tail.sum = init.sum ∧ e.length = init.length + 1 := by
  rcases solve_gillespie_cases f init tspan draws fuel with ⟨err, heq⟩ | ⟨ta, tb, -, -, -, heq⟩
  · rw [heq]
    simp
  · rw [heq]
    exact gillespieLoop_conservation f init.length Hsq fuel draws tb ta init rfl

/-- C3 witness: a three-unit two-compartment system under a constant square
propensity matrix conserves the total population `5` and emits three-component
records at every step. -/
theorem seirmo_c3_conservation_witness :
    (solve_gillespie (fun _ => [[0, 1], [1, 0]]) [2, 3]
        [PyVal.num 0, PyVal.num 2] (fun _ => (1, 1/2)) 2).events.all
      (fun e => decide (e.tail.sum = 5) && decide (e.length = 3)) = true := by
  have h := seirmo_c3_conservation (fun _ => [[0, 1], [1, 0]]) [2, 3]
    [PyVal.num 0, PyVal.num 2] (fun _ => (1, 1/2)) 2
    (by
      intro y hy
      refine ⟨rfl, ?_⟩
      intro row hr
      simp at hr
      rcases hr with rfl | rfl <;> rfl)
  simp only [List.all_eq_true, Bool.and_eq_true, decide_eq_true_eq]
  intro e he
  obtain ⟨h1, h2⟩ := h e he
  constructor
  · rw [h1]
    norm_num
  · rw [h2]
    rfl

/-- C7: a propensity matrix with a negative entry fails the run with a range
error exactly at the step on which it is evaluated — the loop iteration that
evaluated it makes that one propensity call, emits nothing further, and
raises the range error — and already-emitted events remain valid unmodified
history: consuming more of the sequence only ever extends the previously
emitted event list. -/
theorem seirmo_c7_neg_propensity (f : List ℚ → List (List ℚ)) (init y : List ℚ)
    (tspan : List PyVal) (draws : Nat → ℚ × ℚ) (tstop t : ℚ) (fuel m n : Nat)
    (hneg : hasNegEntry (f y) = true) (hmn : m ≤ n) :
    (gillespieLoop f draws tstop (fuel + 1) t y
      = ⟨[], 1, y, t, RunStatus.failed GillespieError.rangeError⟩) ∧
    ((solve_gillespie f init tspan draws m).events
      = ((solve_gillespie f init tspan draws n).events).take
          ((solve_gillespie f init tspan draws m).events.length)) := by
  constructor
  · simp [gillespieLoop, hneg]
  · rcases solve_gillespie_cases f init tspan draws m with ⟨err, heqm⟩ | hok
    · rw [heqm]
      simp
    · obtain ⟨ta, tb, hts, h1, hA, heqm⟩ := hok
      have heqn : solve_gillespie f init tspan draws n
          = gillespieLoop f draws tb n ta init := by
        rw [hts]
        simp [solve_gillespie, h1, hA]
      rw [heqm, heqn]
      obtain ⟨rest, hr⟩ := gillespieLoop_mono f m n hmn draws tb ta init
      rw [hr, List.take_left]

/-- C7 witness: a propensity that turns negative once the second compartment
holds two units fails with a range error at that step with one propensity
call, and the one-event prefix of a longer consumption of the benign run is
exactly its own event list. -/
theorem seirmo_c7_neg_propensity_witness :
    (gillespieLoop (fun z => [[0, 1 - z.getD 1 0], [0, 0]]) (fun _ => (1, 1/2))
        10 (2 + 1) 0 [8, 2]
      = ⟨[], 1, [8, 2], 0, RunStatus.failed GillespieError.rangeError⟩) ∧
    ((solve_gillespie (fun z => [[0, 1 - z.getD 1 0], [0, 0]]) [10, 0]
        [PyVal.num 0, PyVal.num 10] (fun _ => (1, 1/2)) 1).events
      = ((solve_gillespie (fun z => [[0, 1 - z.getD 1 0], [0, 0]]) [10, 0]
          [PyVal.num 0, PyVal.num 10] (fun _ => (1, 1/2)) 3).events).take
          ((solve_gillespie (fun z => [[0, 1 - z.getD 1 0], [0, 0]]) [10, 0]
            [PyVal.num 0, PyVal.num 10] (fun _ => (1, 1/2)) 1).events.length)) :=
  seirmo_c7_neg_propensity (fun z => [[0, 1 - z.getD 1 0], [0, 0]]) [10, 0] [8, 2]
    [PyVal.num 0, PyVal.num 10] (fun _ => (1, 1/2)) 10 0 2 1 3
    (by norm_num [hasNegEntry, List.getD_cons_zero, List.getD_cons_succ])
    (by norm_num)

/-- C8: the caller-supplied propensity function is invoked exactly once per
emitted event: a run of `n` loop iterations that is still in progress (the
lazy sequence was consumed for exactly `n` events and not yet exhausted) has
emitted exactly `n` events and made exactly `n` propensity calls. -/
theorem seirmo_c8_calls_per_event (f : List ℚ → List (List ℚ)) (init : List ℚ)
    (tspan : List PyVal) (draws : Nat → ℚ × ℚ) (n : Nat)
    (h : (solve_gillespie f init tspan draws n).status = RunStatus.outOfFuel) :
    (solve_gillespie f init tspan draws n).calls = n ∧
    (solve_gillespie f init tspan draws n).events.length = n := by
  rcases solve_gillespie_cases f init tspan draws n with ⟨err, heq⟩ | ⟨ta, tb, -, -, -, heq⟩
  · rw [heq] at h
    simp at h
  · rw [heq] at h ⊢
    exact gillespieLoop_outOfFuel f n draws tb ta init h

/-- C8 witness: consuming two events of the ongoing benign run of the test
suite (constant propensity `[[0, 1], [0, 0]]` from `[10, 0]`) makes exactly
two propensity calls for exactly two emitted events. -/
theorem seirmo_c8_calls_per_event_witness :
    (solve_gillespie (fun _ => [[0, 1], [0, 0]]) [10, 0]
        [PyVal.num 0, PyVal.num 10] (fun _ => (1, 1/2)) 2).calls = 2 ∧
    (solve_gillespie (fun _ => [[0, 1], [0, 0]]) [10, 0]
        [PyVal.num 0, PyVal.num 10] (fun _ => (1, 1/2)) 2).events.length = 2 :=
  seirmo_c8_calls_per_event (fun _ => [[0, 1], [0, 0]]) [10, 0]
    [PyVal.num 0, PyVal.num 10] (fun _ => (1, 1/2)) 2
    (by norm_num [solve_gillespie, gillespieLoop, hasNegEntry, totalRate,
      selectEntry, selectIndex, applyTransition, List.set])

/-- C9: for every non-negative initial state, if the propensity function
always returns an all-zero matrix then the run terminates cleanly via
absorption (no error is raised) and the state vector of the final emitted
event equals the initial state exactly. -/
theorem seirmo_c9_allzero_identity (f : List ℚ → List (List ℚ)) (init : List ℚ)
    (ta tb : ℚ) (draws : Nat → ℚ × ℚ) (fuel : Nat)
    (Hz : ∀ y : List ℚ, ∀ row ∈ f y, ∀ x ∈ row, x = 0)
    (hinit : ∀ x ∈ init, 0 ≤ x) (hab : ta < tb) :
    (solve_gillespie f init [PyVal.num ta, PyVal.num tb] draws (fuel + 1)).status
      = RunStatus.absorbed ∧
    ((solve_gillespie f init [PyVal.num ta, PyVal.num tb] draws
        (fuel + 1)).events.getLast?).map List.tail = some init := by
  rw [solve_gillespie_allzero f init ta tb draws fuel Hz hinit hab]
  exact ⟨rfl, rfl⟩

/-- C9 witness: the all-zero propensity run from `[7, 3]` is absorbed and its
final emitted state is `[7, 3]`. -/
theorem seirmo_c9_allzero_identity_witness :
    (solve_gillespie (fun _ => [[0, 0], [0, 0]]) [7, 3]
        [PyVal.num 0, PyVal.num 10] (fun _ => (1, 1/2)) (4 + 1)).status
      = RunStatus.absorbed ∧
    ((solve_gillespie (fun _ => [[0, 0], [0, 0]]) [7, 3]
        [PyVal.num 0, PyVal.num 10] (fun _ => (1, 1/2)) (4 + 1)).events.getLast?).map
        List.tail = some [7, 3] :=
  seirmo_c9_allzero_identity (fun _ => [[0, 0], [0, 0]]) [7, 3]
    0 10 (fun _ => (1, 1/2)) 4
    (by intro y row hr x hx; fin_cases hr <;> fin_cases hx <;> rfl)
    (by intro x hx; fin_cases hx <;> norm_num)
    (by norm_num)

/-- C10: even when the propensity function returns the all-zero matrix from
the very first step (total rate zero immediately), `solve_gillespie` emits
at least one event before terminating: the emitted sequence is non-empty,
so the final emitted state is well defined. -/
theorem seirmo_c10_allzero_emits (f : List ℚ → List (List ℚ)) (init : List ℚ)
    (ta tb : ℚ) (draws : Nat → ℚ × ℚ) (fuel : Nat)
    (Hz : ∀ y : List ℚ, ∀ row ∈ f y, ∀ x ∈ row, x = 0)
    (hinit : ∀ x ∈ init, 0 ≤ x) (hab : ta < tb) :
    (solve_gillespie f init [PyVal.num ta, PyVal.num tb] draws (fuel + 1)).events
      ≠ [] := by
  rw [solve_gillespie_allzero f init ta tb draws fuel Hz hinit hab]
  simp

/-- C10 witness: the all-zero propensity run from `[5, 0]` emits at least one
event. -/
theorem seirmo_c10_allzero_emits_witness :
    (solve_gillespie (fun _ => [[0, 0], [0, 0]]) [5, 0]
        [PyVal.num 0, PyVal.num 3] (fun _ => (1, 1/2)) (0 + 1)).events ≠ [] :=
  seirmo_c10_allzero_emits (fun _ => [[0, 0], [0, 0]]) [5, 0]
    0 3 (fun _ => (1, 1/2)) 0
    (by intro y row hr x hx; fin_cases hr <;> fin_cases hx <;> rfl)
    (by intro x hx; fin_cases hx <;> norm_num)
    (by norm_num)

end Seirmo
